import Mathlib

/-!
Shallow embedding of the dao-zhuwang dashboard core (App.tsx and the
three service modules).  Amounts, thresholds, levels and rewards are
JavaScript numbers in the source; they are modelled as rationals, which
preserves every comparison the code performs.  Strings are modelled as
Lean strings; `toLowerCase` is modelled by per-character ASCII
lowercasing (`Char.toLower`), which agrees with JavaScript on the hex
addresses the code handles.  The JavaScript `Map` is modelled as an
insertion-ordered association list with `Map.get`/`Map.set` semantics.
-/

/-- ASCII model of `String.prototype.toLowerCase`. -/
def strToLower (s : String) : String :=
  String.mk (s.data.map Char.toLower)

/-- `LGNSEvent` from types.ts: one decoded log entry. -/
structure LGNSEvent where
  address : String
  amount : ℚ
  blockNumber : ℕ
  transactionHash : String
deriving DecidableEq, Repr

/-- The anonymous `{ amount, txHash }` value stored in `rawAddressMap`
in App.tsx. -/
structure AmountEntry where
  amount : ℚ
  txHash : String
deriving DecidableEq, Repr

/-- `UserRewardData` from types.ts. -/
structure UserRewardData where
  level : ℚ
  reward : ℚ
deriving DecidableEq, Repr

/-- `MergedData` from types.ts (the optional `error` field is never set
by `processLogs` and is omitted). -/
structure MergedData where
  address : String
  latestLgns : ℚ
  latestTxHash : String
  level : ℚ
  reward : ℚ
  isFetchingReward : Bool
deriving DecidableEq, Repr

/-- `DashboardStats` from types.ts. -/
structure DashboardStats where
  totalUsers : ℕ
  totalLgns : ℚ
  avgLevel : ℚ
  peakOutput : ℚ
deriving DecidableEq, Repr

/-- `Map.get`: first (and only) binding of a key in the insertion-ordered
association list. -/
def mapGet (m : List (String × AmountEntry)) (k : String) : Option AmountEntry :=
  match m with
  | [] => none
  | (k₀, v₀) :: rest => if k₀ = k then some v₀ else mapGet rest k

/-- `Map.set`: update in place when the key is present (keeping its
insertion position), append otherwise. -/
def mapSet (m : List (String × AmountEntry)) (k : String) (v : AmountEntry) :
    List (String × AmountEntry) :=
  match m with
  | [] => [(k, v)]
  | (k₀, v₀) :: rest => if k₀ = k then (k, v) :: rest else (k₀, v₀) :: mapSet rest k v

/-- The body of the `logs.forEach` loop in `processLogs` (App.tsx lines
56-68): skip events with a falsy address, skip the contract's own
address, otherwise keep the entry with the larger amount (strictly
larger, so ties keep the earlier entry). -/
def processEvent (contractLower : String) (m : List (String × AmountEntry))
    (e : LGNSEvent) : List (String × AmountEntry) :=
  if e.address = "" then m
  else
    let addr := strToLower e.address
    if addr ≠ contractLower then
      match mapGet m addr with
      | none => mapSet m addr ⟨e.amount, e.transactionHash⟩
      | some current =>
          if e.amount > current.amount then mapSet m addr ⟨e.amount, e.transactionHash⟩
          else m
    else m

/-- `rawAddressMap` after the `logs.forEach` loop in `processLogs`. -/
def buildAddressMap (contractLower : String) (logs : List LGNSEvent) :
    List (String × AmountEntry) :=
  logs.foldl (processEvent contractLower) []

/-- Keys of the association list, in insertion order
(`Array.from(rawAddressMap.keys())`). -/
def mapKeys (m : List (String × AmountEntry)) : List String :=
  m.map Prod.fst

/-!  ocrosService.ts: `fetchRewards`.  The HTTP interaction is modelled
by an abstract response value; the function body is a direct
translation of the try block, with the surrounding catch folded in by
`fetchRewards` itself. -/

/-- Possible outcomes of the `fetch`/`response.json()` part of
`fetchRewards`. -/
inductive RewardsResponse where
  /-- `fetch` or `response.json()` rejected. -/
  | fetchThrow
  /-- `response.ok` is false with this status code. -/
  | notOk (status : ℕ)
  /-- parsed JSON body is an array of reward records. -/
  | okArray (items : List UserRewardData)
  /-- parsed JSON body is not an array. -/
  | okNonArray
deriving DecidableEq, Repr

/-- The try block of `fetchRewards` (ocrosService.ts lines 9-37):
404 returns the zero record, any other non-ok status throws, an array
body yields its first record, a non-array or empty body yields the zero
record. -/
def fetchRewardsTry (resp : RewardsResponse) : Except String UserRewardData :=
  match resp with
  | .fetchThrow => .error "fetch failed"
  | .notOk status =>
      if status = 404 then .ok ⟨0, 0⟩
      else .error "HTTP Error"
  | .okArray items =>
      match items with
      | [] => .ok ⟨0, 0⟩
      | d :: _ => .ok ⟨d.level, d.reward⟩
  | .okNonArray => .ok ⟨0, 0⟩

/-- `fetchRewards`: the catch clause converts every thrown error into
the zero-value record, so the function never raises. -/
def fetchRewards (resp : RewardsResponse) : UserRewardData :=
  match fetchRewardsTry resp with
  | .ok d => d
  | .error _ => ⟨0, 0⟩

/-- Behaviour of one `fetchRewards(addr)` call as observed by the batch
loop in `processLogs`: either the promise resolves with a response
(whose normalization `fetchRewards` performs), or it rejects and the
per-record catch in App.tsx lines 93-103 applies. -/
inductive LookupBehavior where
  | responds (resp : RewardsResponse)
  | throws
deriving DecidableEq, Repr

/-- One record built inside the batch loop of `processLogs` (App.tsx
lines 81-104): the entry is read back from `rawAddressMap` and joined
with the reward data, a thrown lookup contributing level 0 / reward 0. -/
def mergeRecord (m : List (String × AmountEntry)) (lookup : String → LookupBehavior)
    (addr : String) : MergedData :=
  let entry := (mapGet m addr).getD ⟨0, ""⟩
  match lookup addr with
  | .responds resp =>
      let rewardData := fetchRewards resp
      ⟨addr, entry.amount, entry.txHash, rewardData.level, rewardData.reward, false⟩
  | .throws => ⟨addr, entry.amount, entry.txHash, 0, 0, false⟩

/-- `CONCURRENCY` in App.tsx line 76. -/
def CONCURRENCY : ℕ := 8

/-- The successive `batch` values taken by the loop at App.tsx lines
79-113: slices of `CONCURRENCY` addresses in order. -/
def scanBatches (addrs : List String) : List (List String) :=
  match addrs with
  | [] => []
  | a :: rest =>
      ((a :: rest).take CONCURRENCY) :: scanBatches ((a :: rest).drop CONCURRENCY)
termination_by addrs.length
decreasing_by simp [CONCURRENCY, List.length_drop]; omega

/-- `mergedResults` accumulated by the batch loop: each batch is mapped
through `mergeRecord` (the `Promise.all` join) and appended in batch
order. -/
def batchLoop (m : List (String × AmountEntry)) (lookup : String → LookupBehavior)
    (addrs : List String) : List MergedData :=
  match addrs with
  | [] => []
  | a :: rest =>
      (((a :: rest).take CONCURRENCY).map (mergeRecord m lookup)) ++
        batchLoop m lookup ((a :: rest).drop CONCURRENCY)
termination_by addrs.length
decreasing_by simp [CONCURRENCY, List.length_drop]; omega

/-- `filteredAddresses` in `processLogs` (App.tsx lines 70-71): keys of
the deduplication map whose amount is at least the threshold (the
`|| 0` falsy coercion maps a missing entry to 0; on rationals it is the
identity elsewhere). -/
def filteredAddresses (contract : String) (threshold : ℚ) (logs : List LGNSEvent) :
    List String :=
  let m := buildAddressMap (strToLower contract) logs
  (mapKeys m).filter (fun addr =>
    threshold ≤ ((mapGet m addr).map AmountEntry.amount).getD 0)

/-- The success path of `processLogs` up to `setData(mergedResults)`:
deduplicate, filter by threshold, fetch rewards in batches of
`CONCURRENCY`. -/
def processLogsPure (contract : String) (threshold : ℚ)
    (lookup : String → LookupBehavior) (logs : List LGNSEvent) : List MergedData :=
  batchLoop (buildAddressMap (strToLower contract) logs) lookup
    (filteredAddresses contract threshold logs)

/-!  Sorting and presentation derivations in App.tsx. -/

/-- `SortKey` (App.tsx line 18). -/
inductive SortKey where
  | level
  | reward
  | latestLgns
deriving DecidableEq, Repr

/-- The non-null values of `SortDirection` (App.tsx line 19); the `null`
state is `Option.none` in `SortConfig`. -/
inductive SortDirection where
  | asc
  | desc
deriving DecidableEq, Repr

/-- `sortConfig` state (App.tsx lines 30-33). -/
structure SortConfig where
  key : SortKey
  direction : Option SortDirection
deriving DecidableEq, Repr

/-- `handleSort` (App.tsx lines 140-148): three-state toggle
desc → asc → null on the same key, desc on a fresh key. -/
def handleSort (cfg : SortConfig) (key : SortKey) : SortConfig :=
  if cfg.key = key ∧ cfg.direction = some .desc then ⟨key, some .asc⟩
  else if cfg.key = key ∧ cfg.direction = some .asc then ⟨key, none⟩
  else ⟨key, some .desc⟩

/-- `Number(a[sortConfig.key]) || 0` (App.tsx lines 162-163); on
rationals the falsy coercion `|| 0` is the identity. -/
def fieldVal (key : SortKey) (r : MergedData) : ℚ :=
  match key with
  | .level => r.level
  | .reward => r.reward
  | .latestLgns => r.latestLgns

/-- Whether the character list starts with the given pattern. -/
def startsWithChars : List Char → List Char → Bool
  | [], _ => true
  | _ :: _, [] => false
  | p :: ps, c :: cs => p = c && startsWithChars ps cs

/-- Whether the pattern occurs somewhere in the character list. -/
def hasSubChars (needle : List Char) : List Char → Bool
  | [] => needle.isEmpty
  | c :: cs => startsWithChars needle (c :: cs) || hasSubChars needle cs

/-- `String.prototype.includes`: the empty needle is always found,
otherwise the needle must occur as a contiguous substring. -/
def strIncludes (haystack needle : String) : Bool :=
  hasSubChars needle.data haystack.data

/-- `sortedAndFilteredData` (App.tsx lines 150-179): copy, filter by
case-insensitive address substring when a search is set, then stable
sort — by the configured field ascending or descending when a direction
is set, by `latestLgns` descending otherwise.  JavaScript `Array.sort`
is a stable sort, modelled by `List.insertionSort`. -/
def searchFiltered (data : List MergedData) (searchAddress : String) :
    List MergedData :=
  if searchAddress ≠ "" then
    data.filter (fun item =>
      strIncludes (strToLower item.address) (strToLower searchAddress))
  else data

/-- Continuation of `sortedAndFilteredData`: the stable sort applied to
the search-filtered copy. -/
def sortedAndFilteredData (data : List MergedData) (searchAddress : String)
    (cfg : SortConfig) : List MergedData :=
  let result := searchFiltered data searchAddress
  match cfg.direction with
  | some .asc => result.insertionSort (fun a b => fieldVal cfg.key a ≤ fieldVal cfg.key b)
  | some .desc => result.insertionSort (fun a b => fieldVal cfg.key b ≤ fieldVal cfg.key a)
  | none => result.insertionSort (fun a b => b.latestLgns ≤ a.latestLgns)

/-- `stats` (App.tsx lines 181-189): the empty result set short-circuits
to all-zero statistics; otherwise sum, peak and mean are reduced from
the records. -/
def stats (data : List MergedData) : DashboardStats :=
  if data.length = 0 then ⟨0, 0, 0, 0⟩
  else
    let totalLgns := data.foldl (fun acc curr => acc + curr.latestLgns) 0
    let peak := data.foldl (fun mx d => max mx d.latestLgns) 0
    let avgLvl := (data.foldl (fun acc curr => acc + curr.level) 0) / (data.length : ℚ)
    ⟨data.length, totalLgns, avgLvl, peak⟩

/-!  geminiService.ts: `analyzeData`. -/

/-- One element of the `summary` array built by `analyzeData`
(geminiService.ts lines 7-12): `addr` is the address truncated to its
first 8 characters, the numeric fields are passed through unchanged. -/
structure SummaryRow where
  addr : String
  lgns : ℚ
  level : ℚ
  reward : ℚ
deriving DecidableEq, Repr

/-- The `summary` sample sent to the text-generation service
(geminiService.ts lines 7-12): `data.map(...).slice(0, 10)` — the
first 10 records, address truncated, raw values. -/
def geminiSummary (data : List MergedData) : List SummaryRow :=
  (data.map (fun d =>
    ⟨d.address.take 8, d.latestLgns, d.level, d.reward⟩)).take 10

/-- Outcome of the `ai.models.generateContent` call: a response whose
`text` field is the given string (the empty string covering an absent
field, which the caller's `String(analysis || "")` also maps to the
empty string), or a rejection. -/
inductive GenAiOutcome where
  | ok (text : String)
  | genError
deriving DecidableEq, Repr

/-- `analyzeData` (geminiService.ts lines 4-33).  The constructor line
`new GoogleGenAI({ apiKey: process.env.API_KEY })` runs before the try
block, so when the credential environment is absent (in a browser
`process` itself is undefined) the call raises and rejects instead of
returning a string — modelled as `Except.error`.  With a credential
present, a rejected generation call is caught and yields the fixed
fallback string, and a successful call returns its `text` field.  The
`summary`/`prompt` construction (see `geminiSummary`) cannot fail and
does not influence the returned value. -/
def analyzeData (apiKey : Option String) (gen : GenAiOutcome)
    (data : List MergedData) : Except String String :=
  match apiKey with
  | none => .error "process is not defined"
  | some _ =>
      let _summary := geminiSummary data
      match gen with
      | .ok text => .ok text
      | .genError => .ok "Analysis currently unavailable."

/-!  The `processLogs` state transition in App.tsx. -/

/-- The React state touched by `processLogs`. -/
structure AppState where
  data : List MergedData
  error : Option String
  aiAnalysis : String
  loading : Bool
deriving DecidableEq, Repr

/-- Outcome of `fetchPolygonLogs(rpcUrl, blockRange, scanChunkSize)` as
seen by `processLogs`: a rejection carrying an error message (network
failure or a node-reported RPC error on the height query), a resolved
non-array value, or a resolved event list. -/
inductive FetchOutcome where
  | throws (msg : String)
  | nonArray
  | ok (logs : List LGNSEvent)
deriving Repr

/-- Whether the awaited `analyzeData` call settles as `analyzeData`
models it (`returns`, covering both its resolved value and the
credential-missing rejection), or rejects for a reason outside that
model, such as the `GoogleGenAI` constructor throwing on a malformed
key (`throws`).  The defensive catch at App.tsx lines 119-124 only
logs either kind of rejection. -/
inductive NarrationOutcome where
  | returns
  | throws
deriving DecidableEq, Repr

/-- The fallback of `err.message || '...'` (App.tsx line 129). -/
def defaultErrorMessage : String :=
  "An unexpected error occurred during data synchronization."

/-- One run of `processLogs` (App.tsx lines 44-134) as a state
transition.  `setError(null)` runs first; a fetch failure or non-array
guard reaches the catch clause, which stores a message and leaves
`data` untouched; the success path publishes the merged results, keeps
`error` cleared, and runs the narration step whose failure only logs. -/
def processLogsStep (contract : String) (threshold : ℚ)
    (lookup : String → LookupBehavior) (apiKey : Option String)
    (gen : GenAiOutcome) (narration : NarrationOutcome)
    (fetchOut : FetchOutcome) (s : AppState) : AppState :=
  match fetchOut with
  | .throws msg =>
      { s with error := some (if msg = "" then defaultErrorMessage else msg),
               loading := false }
  | .nonArray =>
      { s with error := some "Invalid response from blockchain node.",
               loading := false }
  | .ok logs =>
      let mergedResults := processLogsPure contract threshold lookup logs
      let ai :=
        match narration with
        | .returns =>
            match analyzeData apiKey gen mergedResults with
            | .ok text => text
            | .error _ => s.aiAnalysis
        | .throws => s.aiAnalysis
      { s with data := mergedResults, error := none, aiAnalysis := ai,
               loading := false }

/-!  blockchainService.ts: `fetchPolygonLogs`. -/

/-- `LGNS_PRECISION` from constants.ts. -/
def LGNS_PRECISION : ℕ := 8

/-- One raw log entry as returned by an `eth_getLogs` response. -/
structure RawLog where
  topics : List String
  data : String
  blockNumber : String
  transactionHash : String
deriving DecidableEq, Repr

/-- Value of one hexadecimal digit. -/
def hexDigitVal (ch : Char) : Option ℕ :=
  if '0' ≤ ch ∧ ch ≤ '9' then some (ch.toNat - '0'.toNat)
  else if 'a' ≤ ch ∧ ch ≤ 'f' then some (ch.toNat - 'a'.toNat + 10)
  else if 'A' ≤ ch ∧ ch ≤ 'F' then some (ch.toNat - 'A'.toNat + 10)
  else none

/-- Parse a bare hexadecimal numeral (the behaviour of
`BigInt("0x" + s)`): empty or non-hex input fails. -/
def hexToNat (s : String) : Option ℕ :=
  if s.data.isEmpty then none
  else
    s.data.foldl
      (fun acc ch => acc.bind fun n => (hexDigitVal ch).map fun d => 16 * n + d)
      (some 0)

/-- Remove the first occurrence of the two-character pattern `0x`. -/
def dropFirst0x : List Char → List Char
  | [] => []
  | '0' :: 'x' :: rest => rest
  | c :: rest => c :: dropFirst0x rest

/-- `s.replace('0x', '')` with a string pattern: remove the first
occurrence of `0x` only. -/
def replaceFirst0x (s : String) : String :=
  String.mk (dropFirst0x s.data)

/-- The per-log decoder inside `fetchPolygonLogs` (blockchainService.ts
lines 49-62).  A missing `topics[1]` or non-hex `data` makes the
JavaScript body throw, which the surrounding catch rethrows: modelled
as `none`.  `blockNumber` is parsed from hex (`parseInt(x, 16)`); its
partial-parse/NaN corner cases are collapsed to 0, which no claim or
downstream code reads. -/
def decodeLog (log : RawLog) : Option LGNSEvent :=
  match log.topics.get? 1 with
  | none => none
  | some rawAddr =>
      let address := "0x" ++ rawAddr.drop 26
      let rawData := replaceFirst0x log.data
      match hexToNat rawData with
      | none => none
      | some v =>
          some { address := strToLower address,
                 amount := (v : ℚ) / ((10 ^ LGNS_PRECISION : ℕ) : ℚ),
                 blockNumber := (hexToNat (replaceFirst0x log.blockNumber)).getD 0,
                 transactionHash := log.transactionHash }

/-- Answer of the node to one `eth_getLogs` range query. -/
inductive ChunkResult where
  | rpcError (msg : String)
  | ok (logs : List RawLog)

/-- Iteration structure of the pagination loop (blockchainService.ts
lines 24-25): starting at `currentFrom`, while `currentFrom <
latestBlock`, query up to `min(currentFrom + chunkSize - 1,
latestBlock)` and advance by `chunkSize`.  The recursion is paid for
with explicit fuel so that the kernel can evaluate it; since each
iteration advances by `chunkSize ≥ 1`, a fuel of `latestBlock -
currentFrom` is always enough.  The source loop does not terminate when
`chunkSize = 0`; the embedding runs out of fuel there and every theorem
assumes a positive chunk size. -/
def chunkLoopFuel (latestBlock chunkSize : ℕ) : ℕ → ℕ → List (ℕ × ℕ)
  | 0, _ => []
  | fuel + 1, currentFrom =>
      if currentFrom < latestBlock then
        (currentFrom, min (currentFrom + chunkSize - 1) latestBlock) ::
          chunkLoopFuel latestBlock chunkSize fuel (currentFrom + chunkSize)
      else []

/-- The `(fromBlock, toBlock)` pairs issued by the pagination loop. -/
def chunkLoop (latestBlock chunkSize currentFrom : ℕ) : List (ℕ × ℕ) :=
  chunkLoopFuel latestBlock chunkSize (latestBlock - currentFrom) currentFrom

/-- All range queries of one `fetchPolygonLogs` call: the start block is
`Math.max(0, latestBlock - totalBlockCount)` (truncated subtraction). -/
def chunkRanges (latestBlock totalBlockCount chunkSize : ℕ) : List (ℕ × ℕ) :=
  chunkLoop latestBlock chunkSize (latestBlock - totalBlockCount)

/-- Folding the range queries (blockchainService.ts lines 24-66): a
node-reported error on a range is skipped (`continue`), a successful
range is decoded and appended; a decode failure propagates as a thrown
error (`none`). -/
def fetchChunks (resp : ℕ → ℕ → ChunkResult) :
    List (ℕ × ℕ) → Option (List LGNSEvent)
  | [] => some []
  | (f, t) :: rest =>
      match resp f t with
      | .rpcError _ => fetchChunks resp rest
      | .ok logs =>
          match logs.mapM decodeLog, fetchChunks resp rest with
          | some evs, some more => some (evs ++ more)
          | _, _ => none

/-- `fetchPolygonLogs` given the decoded answer `latestBlock` of the
initial `eth_blockNumber` query and the node's answer to each range
query (a failing height query rejects the whole call and is modelled at
the caller by `FetchOutcome.throws`). -/
def fetchPolygonLogs (latestBlock totalBlockCount chunkSize : ℕ)
    (resp : ℕ → ℕ → ChunkResult) : Option (List LGNSEvent) :=
  fetchChunks resp (chunkRanges latestBlock totalBlockCount chunkSize)

/-- The events a single range query contributes to the result: none for
a node-reported error, the decoded logs otherwise. -/
def chunkEventsOf (resp : ℕ → ℕ → ChunkResult) (r : ℕ × ℕ) : List LGNSEvent :=
  match resp r.1 r.2 with
  | .rpcError _ => []
  | .ok logs => (logs.mapM decodeLog).getD []

/-- A range query either fails at the node or returns logs that all
decode: under this condition the call cannot throw. -/
def chunkDecodes (resp : ℕ → ℕ → ChunkResult) (r : ℕ × ℕ) : Bool :=
  match resp r.1 r.2 with
  | .rpcError _ => true
  | .ok logs => (logs.mapM decodeLog).isSome

/-!  Helper lemmas about the association-list `Map` model. -/

theorem mapGet_mapSet (m : List (String × AmountEntry)) (k a : String)
    (v : AmountEntry) :
    mapGet (mapSet m k v) a = if k = a then some v else mapGet m a := by
  induction m with
  | nil => by_cases h : k = a <;> simp [mapSet, mapGet, h]
  | cons hd tl ih =>
      obtain ⟨k₀, v₀⟩ := hd
      by_cases h₀ : k₀ = k
      · subst h₀
        by_cases h : k₀ = a <;> simp [mapSet, mapGet, h]
      · by_cases h : k₀ = a
        · subst h
          have : ¬ k = k₀ := fun hh => h₀ hh.symm
          simp [mapSet, mapGet, h₀, this]
        · simp [mapSet, mapGet, h₀, h, ih]

theorem isSome_mapGet_iff (m : List (String × AmountEntry)) (k : String) :
    (mapGet m k).isSome ↔ k ∈ mapKeys m := by
  induction m with
  | nil => simp [mapGet, mapKeys]
  | cons hd tl ih =>
      obtain ⟨k₀, v₀⟩ := hd
      by_cases h : k₀ = k
      · subst h
        simp [mapGet, mapKeys]
      · have h2 : ¬ k = k₀ := fun hh => h hh.symm
        simp [mapGet, mapKeys, h, h2, ih]

theorem mapKeys_mapSet (m : List (String × AmountEntry)) (k : String)
    (v : AmountEntry) :
    mapKeys (mapSet m k v) =
      if k ∈ mapKeys m then mapKeys m else mapKeys m ++ [k] := by
  induction m with
  | nil => simp [mapSet, mapKeys]
  | cons hd tl ih =>
      obtain ⟨k₀, v₀⟩ := hd
      by_cases h : k₀ = k
      · subst h
        simp [mapSet, mapKeys]
      · have h2 : ¬ k = k₀ := fun hh => h hh.symm
        have hmem : (k ∈ mapKeys ((k₀, v₀) :: tl)) ↔ k ∈ mapKeys tl := by
          simp [mapKeys, h2]
        have hstep : mapSet ((k₀, v₀) :: tl) k v = (k₀, v₀) :: mapSet tl k v := by
          simp [mapSet, h]
        have hkeys : mapKeys ((k₀, v₀) :: mapSet tl k v) =
            k₀ :: mapKeys (mapSet tl k v) := rfl
        rw [hstep, hkeys, ih]
        by_cases hm : k ∈ mapKeys tl
        · rw [if_pos hm, if_pos (hmem.mpr hm)]
          rfl
        · rw [if_neg hm, if_neg (fun hc => hm (hmem.mp hc))]
          simp [mapKeys]

theorem nodup_mapKeys_mapSet (m : List (String × AmountEntry)) (k : String)
    (v : AmountEntry) (hm : (mapKeys m).Nodup) :
    (mapKeys (mapSet m k v)).Nodup := by
  rw [mapKeys_mapSet]
  by_cases hk : k ∈ mapKeys m
  · simpa [hk]
  · simpa [hk] using List.Nodup.append hm (by simp) (by simpa using hk)

/-!  Per-account view of the deduplication fold. -/

/-- Whether the `forEach` body attributes an event to account key `a`:
truthy address whose lowercasing is `a`. -/
def isRelevant (a : String) (e : LGNSEvent) : Bool :=
  !(e.address == "") && (strToLower e.address == a)

/-- The events of the list attributed to account key `a`, in arrival
order. -/
def accountEvents (a : String) (logs : List LGNSEvent) : List LGNSEvent :=
  logs.filter (isRelevant a)

/-- Effect of one relevant event on the stored entry of its account:
first event creates the entry, a strictly larger amount replaces it. -/
def bestUpd (o : Option AmountEntry) (e : LGNSEvent) : Option AmountEntry :=
  match o with
  | none => some ⟨e.amount, e.transactionHash⟩
  | some current =>
      if e.amount > current.amount then some ⟨e.amount, e.transactionHash⟩
      else some current

/-- Effect of one arbitrary event on the entry stored at key `a`. -/
def stepA (contractLower a : String) (o : Option AmountEntry) (e : LGNSEvent) :
    Option AmountEntry :=
  if e.address ≠ "" ∧ strToLower e.address = a ∧ a ≠ contractLower then bestUpd o e
  else o

theorem mapGet_processEvent (c a : String) (m : List (String × AmountEntry))
    (e : LGNSEvent) :
    mapGet (processEvent c m e) a = stepA c a (mapGet m a) e := by
  by_cases he : e.address = ""
  · simp [processEvent, stepA, he]
  · by_cases hc : strToLower e.address = c
    · have hcond : ¬ (e.address ≠ "" ∧ strToLower e.address = a ∧ a ≠ c) := by
        rintro ⟨-, h1, h2⟩
        exact h2 (h1 ▸ hc)
      have hca : ¬ (c = a ∧ ¬ a = c) := by
        rintro ⟨h1, h2⟩
        exact h2 h1.symm
      simp [processEvent, stepA, he, hc, hcond, hca]
    · by_cases ha : strToLower e.address = a
      · have hac : a ≠ c := fun h => hc (ha.trans h)
        have hcond : e.address ≠ "" ∧ strToLower e.address = a ∧ a ≠ c := ⟨he, ha, hac⟩
        cases hget : mapGet m (strToLower e.address) with
        | none =>
            have hget2 : mapGet m a = none := ha ▸ hget
            simp [processEvent, stepA, he, hc, hget, hget2, hcond, bestUpd,
              mapGet_mapSet, ha]
        | some cur =>
            have hget2 : mapGet m a = some cur := ha ▸ hget
            by_cases hgt : e.amount > cur.amount
            · simp [processEvent, stepA, he, hc, hget, hget2, hcond, bestUpd,
                mapGet_mapSet, ha, hgt]
            · simp [processEvent, stepA, he, hc, hget, hget2, hcond, bestUpd,
                mapGet_mapSet, ha, hgt]
      · have hcond : ¬ (e.address ≠ "" ∧ strToLower e.address = a ∧ a ≠ c) := by
          rintro ⟨-, h1, -⟩
          exact ha h1
        cases hget : mapGet m (strToLower e.address) with
        | none =>
            simp [processEvent, stepA, he, hc, hget, hcond, mapGet_mapSet, ha]
        | some cur =>
            by_cases hgt : e.amount > cur.amount
            · simp [processEvent, stepA, he, hc, hget, hcond, mapGet_mapSet, ha, hgt]
            · simp [processEvent, stepA, he, hc, hget, hcond, mapGet_mapSet, ha, hgt]

theorem mapGet_foldl_processEvent (c a : String) (logs : List LGNSEvent) :
    ∀ m, mapGet (logs.foldl (processEvent c) m) a =
      logs.foldl (stepA c a) (mapGet m a) := by
  induction logs with
  | nil => intro m; rfl
  | cons e rest ih =>
      intro m
      rw [List.foldl_cons, List.foldl_cons, ih, mapGet_processEvent]

theorem mapGet_buildAddressMap (c a : String) (logs : List LGNSEvent) :
    mapGet (buildAddressMap c logs) a = logs.foldl (stepA c a) none :=
  mapGet_foldl_processEvent c a logs []

theorem stepA_eq_bestUpd (c a : String) (hac : a ≠ c) (o : Option AmountEntry)
    (e : LGNSEvent) :
    stepA c a o e = if isRelevant a e then bestUpd o e else o := by
  unfold stepA isRelevant
  by_cases he : e.address = "" <;> by_cases ha : strToLower e.address = a <;>
    simp [he, ha, hac]

theorem foldl_stepA_eq (c a : String) (hac : a ≠ c) (logs : List LGNSEvent) :
    ∀ o, logs.foldl (stepA c a) o = (accountEvents a logs).foldl bestUpd o := by
  induction logs with
  | nil => intro o; rfl
  | cons e rest ih =>
      intro o
      rw [List.foldl_cons, stepA_eq_bestUpd c a hac]
      by_cases hrel : isRelevant a e = true
      · rw [if_pos hrel]
        have hfc : accountEvents a (e :: rest) = e :: accountEvents a rest := by
          simp [accountEvents, List.filter_cons, hrel]
        rw [hfc, List.foldl_cons]
        exact ih (bestUpd o e)
      · rw [if_neg hrel]
        have hfc : accountEvents a (e :: rest) = accountEvents a rest := by
          simp [accountEvents, List.filter_cons, hrel]
        rw [hfc]
        exact ih o

/-- Reference description of the entry the fold keeps for one account:
the first event of the list attaining the maximum amount. -/
def specBest : List LGNSEvent → Option AmountEntry
  | [] => none
  | e :: rest =>
      match specBest rest with
      | none => some ⟨e.amount, e.transactionHash⟩
      | some b =>
          if b.amount ≤ e.amount then some ⟨e.amount, e.transactionHash⟩
          else some b

theorem specBest_eq_none_iff (l : List LGNSEvent) : specBest l = none ↔ l = [] := by
  cases l with
  | nil => simp [specBest]
  | cons e rest =>
      simp only [specBest]
      cases specBest rest with
      | none => simp
      | some b =>
          by_cases h : b.amount ≤ e.amount <;> simp [h]

theorem foldl_bestUpd_some (l : List LGNSEvent) :
    ∀ v : AmountEntry, l.foldl bestUpd (some v) =
      some (match specBest l with
            | none => v
            | some b => if v.amount < b.amount then b else v) := by
  induction l with
  | nil => intro v; rfl
  | cons e rest ih =>
      intro v
      rw [List.foldl_cons]
      show rest.foldl bestUpd
          (if e.amount > v.amount then some ⟨e.amount, e.transactionHash⟩ else some v) = _
      by_cases hve : e.amount > v.amount
      · rw [if_pos hve, ih]
        cases hsb : specBest rest with
        | none =>
            simp only [specBest, hsb]
            simp [hve]
        | some b =>
            simp only [specBest, hsb]
            by_cases hbe : b.amount ≤ e.amount
            · rw [if_pos hbe]
              have h1 : ¬ e.amount < b.amount := not_lt.mpr hbe
              have h2 : v.amount < e.amount := hve
              simp [h1, h2]
            · rw [if_neg hbe]
              have h1 : e.amount < b.amount := not_le.mp hbe
              have h2 : v.amount < b.amount := lt_trans hve h1
              simp [h1, h2]
      · rw [if_neg hve, ih]
        cases hsb : specBest rest with
        | none =>
            simp only [specBest, hsb]
            simp [hve]
        | some b =>
            simp only [specBest, hsb]
            by_cases hbe : b.amount ≤ e.amount
            · rw [if_pos hbe]
              have h1 : ¬ v.amount < e.amount := hve
              have h2 : ¬ v.amount < b.amount := by
                intro hvb
                exact h1 (lt_of_lt_of_le hvb hbe)
              simp [h1, h2]
            · rw [if_neg hbe]

theorem foldl_bestUpd_none (l : List LGNSEvent) :
    l.foldl bestUpd none = specBest l := by
  cases l with
  | nil => rfl
  | cons e rest =>
      rw [List.foldl_cons]
      show rest.foldl bestUpd (some ⟨e.amount, e.transactionHash⟩) = specBest (e :: rest)
      rw [foldl_bestUpd_some]
      cases hsb : specBest rest with
      | none => simp [specBest, hsb]
      | some b =>
          simp only [specBest, hsb]
          by_cases h : b.amount ≤ e.amount
          · rw [if_pos h]
            have h2 : ¬ (⟨e.amount, e.transactionHash⟩ : AmountEntry).amount < b.amount :=
              not_lt.mpr h
            simp [h2]
          · rw [if_neg h]
            have h2 : (⟨e.amount, e.transactionHash⟩ : AmountEntry).amount < b.amount :=
              not_le.mp h
            simp [h2]

theorem specBest_characterize (l : List LGNSEvent) (v : AmountEntry)
    (h : specBest l = some v) :
    (∀ e ∈ l, e.amount ≤ v.amount) ∧
    ∃ e, l.find? (fun x => decide (v.amount ≤ x.amount)) = some e ∧
      e.amount = v.amount ∧ e.transactionHash = v.txHash := by
  induction l generalizing v with
  | nil => simp [specBest] at h
  | cons e rest ih =>
      cases hsb : specBest rest with
      | none =>
          have hstep : specBest (e :: rest) =
              some ⟨e.amount, e.transactionHash⟩ := by
            simp [specBest, hsb]
          rw [hstep] at h
          have hrest : rest = [] := (specBest_eq_none_iff rest).mp hsb
          subst hrest
          cases h
          refine ⟨?_, e, ?_, rfl, rfl⟩
          · intro x hx
            simp only [List.mem_singleton] at hx
            subst hx
            exact le_refl _
          · simp [List.find?]
      | some b =>
          have hstep : specBest (e :: rest) =
              if b.amount ≤ e.amount then some ⟨e.amount, e.transactionHash⟩
              else some b := by
            simp [specBest, hsb]
          rw [hstep] at h
          obtain ⟨hbound, e₁, hfind, ham, htx⟩ := ih b hsb
          by_cases hbe : b.amount ≤ e.amount
          · rw [if_pos hbe] at h
            cases h
            refine ⟨?_, e, ?_, rfl, rfl⟩
            · intro x hx
              rcases List.mem_cons.mp hx with hx | hx
              · subst hx; exact le_refl _
              · exact le_trans (hbound x hx) hbe
            · simp [List.find?]
          · rw [if_neg hbe] at h
            cases h
            refine ⟨?_, e₁, ?_, ham, htx⟩
            · intro x hx
              rcases List.mem_cons.mp hx with hx | hx
              · subst hx; exact le_of_lt (not_le.mp hbe)
              · exact hbound x hx
            · rw [List.find?]
              have : decide (v.amount ≤ e.amount) = false := by
                simpa using hbe
              rw [this]
              exact hfind

theorem nodup_mapKeys_processEvent (c : String) (m : List (String × AmountEntry))
    (e : LGNSEvent) (h : (mapKeys m).Nodup) :
    (mapKeys (processEvent c m e)).Nodup := by
  by_cases he : e.address = ""
  · simpa [processEvent, he] using h
  · by_cases hc : strToLower e.address ≠ c
    · cases hget : mapGet m (strToLower e.address) with
      | none =>
          simpa [processEvent, he, hc, hget] using nodup_mapKeys_mapSet m _ _ h
      | some cur =>
          by_cases hgt : e.amount > cur.amount
          · simpa [processEvent, he, hc, hget, hgt] using nodup_mapKeys_mapSet m _ _ h
          · simpa [processEvent, he, hc, hget, hgt] using h
    · simpa [processEvent, he, hc] using h

theorem nodup_mapKeys_foldl (c : String) (logs : List LGNSEvent) :
    ∀ m, (mapKeys m).Nodup → (mapKeys (logs.foldl (processEvent c) m)).Nodup := by
  induction logs with
  | nil => intro m h; exact h
  | cons e rest ih =>
      intro m h
      exact ih _ (nodup_mapKeys_processEvent c m e h)

theorem nodup_mapKeys_buildAddressMap (c : String) (logs : List LGNSEvent) :
    (mapKeys (buildAddressMap c logs)).Nodup :=
  nodup_mapKeys_foldl c logs [] (by simp [mapKeys])

theorem mapKeys_processEvent_ne (c : String) (m : List (String × AmountEntry))
    (e : LGNSEvent) (h : ∀ k ∈ mapKeys m, k ≠ c) :
    ∀ k ∈ mapKeys (processEvent c m e), k ≠ c := by
  by_cases he : e.address = ""
  · simpa [processEvent, he] using h
  · by_cases hc : strToLower e.address ≠ c
    · have hset : ∀ k ∈ mapKeys (mapSet m (strToLower e.address)
          ⟨e.amount, e.transactionHash⟩), k ≠ c := by
        intro k hk
        rw [mapKeys_mapSet] at hk
        by_cases hmem : strToLower e.address ∈ mapKeys m
        · rw [if_pos hmem] at hk
          exact h k hk
        · rw [if_neg hmem] at hk
          rcases List.mem_append.mp hk with hk | hk
          · exact h k hk
          · simp only [List.mem_singleton] at hk
            subst hk
            exact hc
      cases hget : mapGet m (strToLower e.address) with
      | none => simpa [processEvent, he, hc, hget] using hset
      | some cur =>
          by_cases hgt : e.amount > cur.amount
          · simpa [processEvent, he, hc, hget, hgt] using hset
          · simpa [processEvent, he, hc, hget, hgt] using h
    · simpa [processEvent, he, hc] using h

theorem mapKeys_buildAddressMap_ne (c : String) (logs : List LGNSEvent) :
    ∀ k ∈ mapKeys (buildAddressMap c logs), k ≠ c := by
  have hgen : ∀ (l : List LGNSEvent) (m : List (String × AmountEntry)),
      (∀ k ∈ mapKeys m, k ≠ c) →
      ∀ k ∈ mapKeys (l.foldl (processEvent c) m), k ≠ c := by
    intro l
    induction l with
    | nil => intro m h; exact h
    | cons e rest ih =>
        intro m h
        exact ih _ (mapKeys_processEvent_ne c m e h)
  exact hgen logs [] (by simp [mapKeys])

/-- The entry stored for account key `a` is exactly the reference
best-entry of that account's events. -/
theorem mapGet_buildAddressMap_eq_specBest (c a : String) (hac : a ≠ c)
    (logs : List LGNSEvent) :
    mapGet (buildAddressMap c logs) a = specBest (accountEvents a logs) := by
  rw [mapGet_buildAddressMap, foldl_stepA_eq c a hac, foldl_bestUpd_none]

theorem specBest_perm_amount {l l' : List LGNSEvent} (hp : l.Perm l') :
    (specBest l).map AmountEntry.amount = (specBest l').map AmountEntry.amount := by
  cases hs : specBest l with
  | none =>
      have hl : l = [] := (specBest_eq_none_iff l).mp hs
      subst hl
      have hl' : l' = [] := hp.symm.eq_nil
      subst hl'
      rfl
  | some v =>
      cases hs2 : specBest l' with
      | none =>
          have hl' : l' = [] := (specBest_eq_none_iff l').mp hs2
          subst hl'
          have hl : l = [] := hp.eq_nil
          subst hl
          simp [specBest] at hs
      | some v2 =>
          obtain ⟨hb, e₁, hf, ha, -⟩ := specBest_characterize l v hs
          obtain ⟨hb2, e₂, hf2, ha2, -⟩ := specBest_characterize l' v2 hs2
          have he₁ : e₁ ∈ l := List.mem_of_find?_eq_some hf
          have he₂ : e₂ ∈ l' := List.mem_of_find?_eq_some hf2
          have h1 : v.amount ≤ v2.amount := ha ▸ hb2 e₁ (hp.mem_iff.mp he₁)
          have h2 : v2.amount ≤ v.amount := ha2 ▸ hb e₂ (hp.mem_iff.mpr he₂)
          simp [le_antisymm h1 h2]

/-- C1: for every account key other than the contract's lowercased
address, the deduplication map holds no entry exactly when the account
has no events; otherwise its entry's amount is the maximum amount over
the account's events, its txHash is that of the first arriving event
attaining the maximum (an equal later amount does not replace it), the
map's keys are pairwise distinct (at most one entry per account), and
the stored amount is invariant under permuting the input events. -/
theorem claim1_dedup_keeps_max (contract : String) (logs : List LGNSEvent)
    (a : String) (ha : a ≠ strToLower contract) :
    (mapKeys (buildAddressMap (strToLower contract) logs)).Nodup ∧
    (match mapGet (buildAddressMap (strToLower contract) logs) a with
     | none => accountEvents a logs = []
     | some v =>
         (∀ e ∈ accountEvents a logs, e.amount ≤ v.amount) ∧
         ∃ e, (accountEvents a logs).find?
             (fun x => decide (v.amount ≤ x.amount)) = some e ∧
           e.amount = v.amount ∧ e.transactionHash = v.txHash) ∧
    ∀ logs' : List LGNSEvent, logs.Perm logs' →
      (mapGet (buildAddressMap (strToLower contract) logs) a).map AmountEntry.amount =
        (mapGet (buildAddressMap (strToLower contract) logs') a).map
          AmountEntry.amount := by
  refine ⟨nodup_mapKeys_buildAddressMap _ _, ?_, ?_⟩
  · rw [mapGet_buildAddressMap_eq_specBest _ a ha]
    cases hs : specBest (accountEvents a logs) with
    | none => exact (specBest_eq_none_iff _).mp hs
    | some v => exact specBest_characterize _ v hs
  · intro logs' hp
    rw [mapGet_buildAddressMap_eq_specBest _ a ha,
      mapGet_buildAddressMap_eq_specBest _ a ha]
    exact specBest_perm_amount (hp.filter _)

theorem claim1_dedup_keeps_max_witness :
    (mapKeys (buildAddressMap (strToLower "0xC")
      [⟨"0xA", 50, 1, "t1"⟩, ⟨"0xb", 10, 1, "t2"⟩, ⟨"0xa", 50, 2, "t3"⟩,
       ⟨"0xa", 30, 3, "t4"⟩])).Nodup :=
  (claim1_dedup_keeps_max "0xC"
    [⟨"0xA", 50, 1, "t1"⟩, ⟨"0xb", 10, 1, "t2"⟩, ⟨"0xa", 50, 2, "t3"⟩,
     ⟨"0xa", 30, 3, "t4"⟩] "0xa" (by decide)).1

/-!  The batch loop. -/

theorem mergeRecord_address (m : List (String × AmountEntry))
    (lookup : String → LookupBehavior) (addr : String) :
    (mergeRecord m lookup addr).address = addr := by
  cases h : lookup addr <;> simp [mergeRecord, h]

theorem batchLoop_eq_map (m : List (String × AmountEntry))
    (lookup : String → LookupBehavior) :
    ∀ addrs : List String,
      batchLoop m lookup addrs = addrs.map (mergeRecord m lookup)
  | [] => by simp [batchLoop]
  | a :: rest => by
      rw [batchLoop, batchLoop_eq_map m lookup ((a :: rest).drop CONCURRENCY),
        ← List.map_append, List.take_append_drop]
termination_by addrs => addrs.length
decreasing_by simp [CONCURRENCY]; omega

theorem mem_filteredAddresses {contract : String} {threshold : ℚ}
    {logs : List LGNSEvent} {a : String}
    (h : a ∈ filteredAddresses contract threshold logs) :
    a ∈ mapKeys (buildAddressMap (strToLower contract) logs) ∧
    threshold ≤ ((mapGet (buildAddressMap (strToLower contract) logs) a).map
      AmountEntry.amount).getD 0 := by
  have h2 := List.mem_filter.mp h
  exact ⟨h2.1, by simpa using h2.2⟩

/-- C7: the contract's own lowercase address is never a key of the
deduplication map, and no record of the merged result set carries it as
its address. -/
theorem claim7_contract_never_appears (contract : String) (threshold : ℚ)
    (lookup : String → LookupBehavior) (logs : List LGNSEvent) :
    strToLower contract ∉ mapKeys (buildAddressMap (strToLower contract) logs) ∧
    ∀ r ∈ processLogsPure contract threshold lookup logs,
      r.address ≠ strToLower contract := by
  constructor
  · intro hmem
    exact mapKeys_buildAddressMap_ne _ logs _ hmem rfl
  · intro r hr
    rw [processLogsPure, batchLoop_eq_map] at hr
    obtain ⟨a, hmem, hra⟩ := List.mem_map.mp hr
    have haddr : r.address = a := by rw [← hra, mergeRecord_address]
    rw [haddr]
    exact mapKeys_buildAddressMap_ne _ logs a (mem_filteredAddresses hmem).1

theorem claim7_contract_never_appears_witness :
    strToLower "0xC" ∉ mapKeys (buildAddressMap (strToLower "0xC")
      [⟨"0xC", 99, 1, "t0"⟩, ⟨"0xa", 50, 1, "t1"⟩]) :=
  (claim7_contract_never_appears "0xC" 0 (fun _ => .throws)
    [⟨"0xC", 99, 1, "t0"⟩, ⟨"0xa", 50, 1, "t1"⟩]).1

theorem mergeRecord_latestLgns (m : List (String × AmountEntry))
    (lookup : String → LookupBehavior) (addr : String) (v : AmountEntry)
    (h : mapGet m addr = some v) :
    (mergeRecord m lookup addr).latestLgns = v.amount := by
  cases hl : lookup addr <;> simp [mergeRecord, h, hl]

/-- C2: every merged record's amount is at least the threshold, and an
account whose deduplicated amount is below the threshold never appears
as the address of a merged record. -/
theorem claim2_threshold_filter (contract : String) (threshold : ℚ)
    (lookup : String → LookupBehavior) (logs : List LGNSEvent) :
    (∀ r ∈ processLogsPure contract threshold lookup logs,
        threshold ≤ r.latestLgns) ∧
    ∀ a v, mapGet (buildAddressMap (strToLower contract) logs) a = some v →
      v.amount < threshold →
      ∀ r ∈ processLogsPure contract threshold lookup logs, r.address ≠ a := by
  have hmain : ∀ r ∈ processLogsPure contract threshold lookup logs,
      ∃ a v, r.address = a ∧
        mapGet (buildAddressMap (strToLower contract) logs) a = some v ∧
        r.latestLgns = v.amount ∧ threshold ≤ v.amount := by
    intro r hr
    rw [processLogsPure, batchLoop_eq_map] at hr
    obtain ⟨a, hmem, hra⟩ := List.mem_map.mp hr
    obtain ⟨hkey, hth⟩ := mem_filteredAddresses hmem
    obtain ⟨v, hv⟩ := Option.isSome_iff_exists.mp
      ((isSome_mapGet_iff _ a).mpr hkey)
    refine ⟨a, v, ?_, hv, ?_, ?_⟩
    · rw [← hra, mergeRecord_address]
    · rw [← hra, mergeRecord_latestLgns _ _ _ _ hv]
    · simpa [hv] using hth
  constructor
  · intro r hr
    obtain ⟨a, v, -, -, hlg, hth⟩ := hmain r hr
    rw [hlg]
    exact hth
  · intro a v hv hlt r hr hra
    obtain ⟨a2, v2, hra2, hv2, -, hth⟩ := hmain r hr
    rw [hra] at hra2
    subst hra2
    rw [hv] at hv2
    cases hv2
    exact absurd hlt (not_lt.mpr hth)

theorem claim2_threshold_filter_witness :
    (40 : ℚ) ≤ (mergeRecord
      (buildAddressMap (strToLower "0xC")
        [⟨"0xa", 50, 1, "t1"⟩, ⟨"0xb", 10, 1, "t2"⟩, ⟨"0xa", 30, 2, "t3"⟩])
      (fun _ => .throws) "0xa").latestLgns :=
  (claim2_threshold_filter "0xC" 40 (fun _ => .throws)
    [⟨"0xa", 50, 1, "t1"⟩, ⟨"0xb", 10, 1, "t2"⟩, ⟨"0xa", 30, 2, "t3"⟩]).1
    (mergeRecord
      (buildAddressMap (strToLower "0xC")
        [⟨"0xa", 50, 1, "t1"⟩, ⟨"0xb", 10, 1, "t2"⟩, ⟨"0xa", 30, 2, "t3"⟩])
      (fun _ => .throws) "0xa")
    (by rw [processLogsPure, batchLoop_eq_map]; decide)

/-- C3: for an account that passed the threshold filter, a reward
lookup that throws (at fetch level or at await level), answers HTTP
404, or returns an empty array yields a merged record for that account
with level 0 and reward 0; the account stays in the result set, and the
scan still produces exactly one record per filtered account. -/
theorem claim3_reward_failure_is_zero (contract : String) (threshold : ℚ)
    (lookup : String → LookupBehavior) (logs : List LGNSEvent) (a : String)
    (hmem : a ∈ filteredAddresses contract threshold logs)
    (hfail : lookup a = .throws ∨ lookup a = .responds .fetchThrow ∨
      lookup a = .responds (.notOk 404) ∨ lookup a = .responds (.okArray [])) :
    (∃ r ∈ processLogsPure contract threshold lookup logs,
        r.address = a ∧ r.level = 0 ∧ r.reward = 0) ∧
    (processLogsPure contract threshold lookup logs).length =
      (filteredAddresses contract threshold logs).length := by
  have hzero :
      (mergeRecord (buildAddressMap (strToLower contract) logs) lookup a).level = 0 ∧
      (mergeRecord (buildAddressMap (strToLower contract) logs) lookup a).reward = 0 := by
    rcases hfail with h | h | h | h <;>
      simp [mergeRecord, h, fetchRewards, fetchRewardsTry]
  constructor
  · refine ⟨mergeRecord (buildAddressMap (strToLower contract) logs) lookup a,
      ?_, mergeRecord_address _ _ _, hzero.1, hzero.2⟩
    rw [processLogsPure, batchLoop_eq_map]
    exact List.mem_map_of_mem _ hmem
  · rw [processLogsPure, batchLoop_eq_map, List.length_map]

theorem claim3_reward_failure_is_zero_witness :
    (processLogsPure "0xC" 40 (fun _ => .responds (.notOk 404))
      [⟨"0xa", 50, 1, "t1"⟩]).length =
    (filteredAddresses "0xC" 40 [⟨"0xa", 50, 1, "t1"⟩]).length :=
  (claim3_reward_failure_is_zero "0xC" 40 (fun _ => .responds (.notOk 404))
    [⟨"0xa", 50, 1, "t1"⟩] "0xa" (by decide)
    (Or.inr (Or.inr (Or.inl rfl)))).2

/-!  Shape of the batch partition. -/

theorem scanBatches_length : ∀ addrs : List String,
    (scanBatches addrs).length = (addrs.length + CONCURRENCY - 1) / CONCURRENCY
  | [] => by simp [scanBatches, CONCURRENCY]
  | a :: rest => by
      rw [scanBatches]
      simp only [List.length_cons,
        scanBatches_length ((a :: rest).drop CONCURRENCY), List.length_drop]
      simp only [CONCURRENCY, List.length_cons]
      omega
termination_by addrs => addrs.length
decreasing_by simp [CONCURRENCY]; omega

theorem scanBatches_join : ∀ addrs : List String, (scanBatches addrs).flatten = addrs
  | [] => by simp [scanBatches]
  | a :: rest => by
      rw [scanBatches]
      simp only [List.flatten_cons, scanBatches_join ((a :: rest).drop CONCURRENCY)]
      exact List.take_append_drop _ _
termination_by addrs => addrs.length
decreasing_by simp [CONCURRENCY]; omega

theorem scanBatches_sizes : ∀ addrs : List String,
    ∀ b ∈ scanBatches addrs, b ≠ [] ∧ b.length ≤ CONCURRENCY
  | [] => by simp [scanBatches]
  | a :: rest => by
      intro b hb
      rw [scanBatches] at hb
      rcases List.mem_cons.mp hb with hb | hb
      · subst hb
        refine ⟨?_, ?_⟩
        · simp [CONCURRENCY]
        · exact List.length_take_le _ _
      · exact scanBatches_sizes ((a :: rest).drop CONCURRENCY) b hb
termination_by addrs => addrs.length
decreasing_by simp [CONCURRENCY]; omega

theorem scanBatches_full : ∀ addrs : List String, ∀ i : ℕ,
    i + 1 < (scanBatches addrs).length →
    ((scanBatches addrs).getD i []).length = CONCURRENCY
  | [] => by simp [scanBatches]
  | a :: rest => by
      intro i hi
      rw [scanBatches] at hi ⊢
      cases i with
      | zero =>
          have hne : scanBatches ((a :: rest).drop CONCURRENCY) ≠ [] := by
            intro h0
            rw [h0] at hi
            simp at hi
          have hd : (a :: rest).drop CONCURRENCY ≠ [] := by
            intro h0
            apply hne
            rw [h0]
            simp [scanBatches]
          have hlen : CONCURRENCY < (a :: rest).length := by
            by_contra hle
            push_neg at hle
            exact hd (List.drop_eq_nil_of_le hle)
          simp only [List.getD_cons_zero, List.length_take]
          simp only [CONCURRENCY, List.length_cons] at hlen ⊢
          omega
      | succ j =>
          have hj : j + 1 < (scanBatches ((a :: rest).drop CONCURRENCY)).length := by
            simpa using hi
          simpa [List.getD_cons_succ] using
            scanBatches_full ((a :: rest).drop CONCURRENCY) j hj
termination_by addrs => addrs.length
decreasing_by simp [CONCURRENCY]; omega

theorem batchLoop_eq_join (m : List (String × AmountEntry))
    (lookup : String → LookupBehavior) : ∀ addrs : List String,
    batchLoop m lookup addrs =
      ((scanBatches addrs).map (fun b => b.map (mergeRecord m lookup))).flatten
  | [] => by simp [batchLoop, scanBatches]
  | a :: rest => by
      rw [batchLoop, scanBatches]
      simp only [List.map_cons, List.flatten_cons]
      rw [batchLoop_eq_join m lookup ((a :: rest).drop CONCURRENCY)]
termination_by addrs => addrs.length
decreasing_by simp [CONCURRENCY]; omega

/-- C4: the reward phase slices the filtered list into exactly
`ceil(M/8)` batches — every batch nonempty and of size at most 8, every
batch except the last of size exactly 8, the batches concatenating back
to the input — and the concatenated batch results equal the input list
mapped in order: the i-th output record is built from the i-th filtered
account. -/
theorem claim4_batching (m : List (String × AmountEntry))
    (lookup : String → LookupBehavior) (addrs : List String) :
    (scanBatches addrs).length = (addrs.length + CONCURRENCY - 1) / CONCURRENCY ∧
    (∀ b ∈ scanBatches addrs, b ≠ [] ∧ b.length ≤ CONCURRENCY) ∧
    (∀ i : ℕ, i + 1 < (scanBatches addrs).length →
      ((scanBatches addrs).getD i []).length = CONCURRENCY) ∧
    (scanBatches addrs).flatten = addrs ∧
    batchLoop m lookup addrs =
      ((scanBatches addrs).map (fun b => b.map (mergeRecord m lookup))).flatten ∧
    batchLoop m lookup addrs = addrs.map (mergeRecord m lookup) ∧
    ∀ i : ℕ, (batchLoop m lookup addrs)[i]? =
      (addrs[i]?).map (mergeRecord m lookup) := by
  refine ⟨scanBatches_length addrs, scanBatches_sizes addrs,
    scanBatches_full addrs, scanBatches_join addrs,
    batchLoop_eq_join m lookup addrs, batchLoop_eq_map m lookup addrs, ?_⟩
  intro i
  rw [batchLoop_eq_map, List.getElem?_map]

theorem claim4_batching_witness :
    (scanBatches ["a1", "a2", "a3", "a4", "a5", "a6", "a7", "a8", "a9"]).length =
      (["a1", "a2", "a3", "a4", "a5", "a6", "a7", "a8", "a9"].length +
        CONCURRENCY - 1) / CONCURRENCY :=
  (claim4_batching [] (fun _ => .throws)
    ["a1", "a2", "a3", "a4", "a5", "a6", "a7", "a8", "a9"]).1

/-- C5: when the event-fetch step fails — the call rejects (network
failure or node-reported RPC error on the height query) or resolves to
a non-array — the run stores a nonempty error message, leaves the
previously displayed result set unchanged, and leaves the narration
text unchanged. -/
theorem claim5_fetch_failure_aborts (contract : String) (threshold : ℚ)
    (lookup : String → LookupBehavior) (apiKey : Option String)
    (gen : GenAiOutcome) (narration : NarrationOutcome)
    (fetchOut : FetchOutcome) (s : AppState)
    (h : (∃ msg, fetchOut = .throws msg) ∨ fetchOut = .nonArray) :
    (processLogsStep contract threshold lookup apiKey gen narration
      fetchOut s).data = s.data ∧
    (processLogsStep contract threshold lookup apiKey gen narration
      fetchOut s).aiAnalysis = s.aiAnalysis ∧
    ∃ m, (processLogsStep contract threshold lookup apiKey gen narration
      fetchOut s).error = some m ∧ m ≠ "" := by
  rcases h with ⟨msg, hf⟩ | hf
  · subst hf
    refine ⟨rfl, rfl, ?_⟩
    by_cases hm : msg = ""
    · exact ⟨defaultErrorMessage, by simp [processLogsStep, hm], by decide⟩
    · exact ⟨msg, by simp [processLogsStep, hm], hm⟩
  · subst hf
    exact ⟨rfl, rfl, "Invalid response from blockchain node.", rfl, by decide⟩

theorem claim5_fetch_failure_aborts_witness :
    (processLogsStep "0xC" 40 (fun _ => .throws) none (.ok "") .returns
      (.throws "RPC Error: height query failed")
      ⟨[⟨"0xa", 50, "t1", 1, 2, false⟩], none, "old", true⟩).data =
      [⟨"0xa", 50, "t1", 1, 2, false⟩] :=
  (claim5_fetch_failure_aborts "0xC" 40 (fun _ => .throws) none (.ok "")
    .returns (.throws "RPC Error: height query failed")
    ⟨[⟨"0xa", 50, "t1", 1, 2, false⟩], none, "old", true⟩
    (Or.inl ⟨"RPC Error: height query failed", rfl⟩)).1

/-- C9 counterexample: the constructor line
`new GoogleGenAI({ apiKey: process.env.API_KEY })` runs before the try
block of `analyzeData`, so with the credential environment absent (in a
browser `process` itself is undefined) the narration call raises
instead of yielding a fallback string — here at a concrete one-record
result set whose generation call would otherwise have succeeded. -/
theorem claim9_counterexample :
    analyzeData none (.ok "fine analysis")
      [⟨"0xa", 50, "t1", 1, 2, false⟩] =
      Except.error "process is not defined" := rfl

/-- C9 (amended): the narration step sends at most the first 10 records
of the ranked result set (addresses truncated to 8 characters, numeric
fields raw); a failed generation call yields the fixed fallback string
instead of raising, but a missing credential environment makes the
narration call itself raise before reaching the try block; whatever the
narration outcome — a returned string, that raise, or any other
rejection — the success path of `processLogs` still publishes the
merged result set and keeps the error state cleared: the scan completes
normally. -/
theorem claim9_narration_isolated (contract : String) (threshold : ℚ)
    (lookup : String → LookupBehavior) (apiKey : Option String)
    (gen : GenAiOutcome) (narration : NarrationOutcome)
    (logs : List LGNSEvent) (s : AppState) :
    (processLogsStep contract threshold lookup apiKey gen narration
      (.ok logs) s).data = processLogsPure contract threshold lookup logs ∧
    (processLogsStep contract threshold lookup apiKey gen narration
      (.ok logs) s).error = none ∧
    (geminiSummary (processLogsPure contract threshold lookup logs)).length ≤ 10 ∧
    geminiSummary (processLogsPure contract threshold lookup logs) =
      ((processLogsPure contract threshold lookup logs).take 10).map
        (fun d => ⟨d.address.take 8, d.latestLgns, d.level, d.reward⟩) ∧
    (∀ k : String,
      analyzeData (some k) .genError
          (processLogsPure contract threshold lookup logs) =
        .ok "Analysis currently unavailable.") ∧
    (apiKey = none →
      analyzeData apiKey gen (processLogsPure contract threshold lookup logs) =
        .error "process is not defined") := by
  refine ⟨by simp [processLogsStep], by simp [processLogsStep], ?_, ?_, ?_, ?_⟩
  · have hle : (geminiSummary
        (processLogsPure contract threshold lookup logs)).length ≤ 10 := by
      simp [geminiSummary]
    exact hle
  · rw [geminiSummary]
    exact (List.map_take _ _ _).symm
  · intro k
    rfl
  · intro hk
    subst hk
    rfl

theorem claim9_narration_isolated_witness :
    (processLogsStep "0xC" 40 (fun _ => .throws) none .genError .throws
      (.ok [⟨"0xa", 50, 1, "t1"⟩]) ⟨[], some "old error", "old", true⟩).error =
      none :=
  (claim9_narration_isolated "0xC" 40 (fun _ => .throws) none .genError
    .throws [⟨"0xa", 50, 1, "t1"⟩] ⟨[], some "old error", "old", true⟩).2.1

/-- C10: the empty result set is short-circuited by the explicit length
guard to the all-zero statistics, so the mean level is never formed
with a zero record count; for a nonempty set the statistics are the
reduced sum, mean and peak with a nonzero divisor. -/
theorem claim10_stats_empty_guard (data : List MergedData) :
    stats [] = ⟨0, 0, 0, 0⟩ ∧
    (data.length = 0 → stats data = ⟨0, 0, 0, 0⟩) ∧
    (data ≠ [] → ((data.length : ℚ) ≠ 0 ∧
      stats data = ⟨data.length,
        data.foldl (fun acc curr => acc + curr.latestLgns) 0,
        (data.foldl (fun acc curr => acc + curr.level) 0) / (data.length : ℚ),
        data.foldl (fun mx d => max mx d.latestLgns) 0⟩)) := by
  refine ⟨rfl, ?_, ?_⟩
  · intro h
    simp [stats, h]
  · intro h
    have hlen : data.length ≠ 0 := by
      simpa [List.length_eq_zero] using h
    refine ⟨by exact_mod_cast Nat.cast_ne_zero.mpr hlen, ?_⟩
    simp [stats, hlen]

theorem claim10_stats_empty_guard_witness :
    ((([⟨"0xa", 50, "t1", 2, 3, false⟩] : List MergedData).length : ℚ) ≠ 0) :=
  ((claim10_stats_empty_guard [⟨"0xa", 50, "t1", 2, 3, false⟩]).2.2
    (by decide)).1

/-- C8: for each sortable numeric field, toggling from the
descending-sorted state yields the ascending sort of the (search
filtered) table by that field; a further toggle clears the sort and the
table is rendered in the default order, descending by amount
(`latestLgns`); both renderings are permutations of the filtered
records. -/
theorem claim8_sort_toggle (data : List MergedData) (search : String)
    (key : SortKey) :
    handleSort ⟨key, some .desc⟩ key = ⟨key, some .asc⟩ ∧
    List.Sorted (fun a b => fieldVal key a ≤ fieldVal key b)
      (sortedAndFilteredData data search ⟨key, some .asc⟩) ∧
    (sortedAndFilteredData data search ⟨key, some .asc⟩).Perm
      (searchFiltered data search) ∧
    handleSort ⟨key, some .asc⟩ key = ⟨key, none⟩ ∧
    List.Sorted (fun a b => b.latestLgns ≤ a.latestLgns)
      (sortedAndFilteredData data search ⟨key, none⟩) ∧
    (sortedAndFilteredData data search ⟨key, none⟩).Perm
      (searchFiltered data search) := by
  haveI h₁ : IsTotal MergedData (fun a b => fieldVal key a ≤ fieldVal key b) :=
    ⟨fun a b => le_total _ _⟩
  haveI h₂ : IsTrans MergedData (fun a b => fieldVal key a ≤ fieldVal key b) :=
    ⟨fun a b c hab hbc => le_trans hab hbc⟩
  haveI h₃ : IsTotal MergedData (fun a b => b.latestLgns ≤ a.latestLgns) :=
    ⟨fun a b => le_total _ _⟩
  haveI h₄ : IsTrans MergedData (fun a b => b.latestLgns ≤ a.latestLgns) :=
    ⟨fun a b c hab hbc => le_trans hbc hab⟩
  refine ⟨by simp [handleSort], ?_, ?_, by simp [handleSort], ?_, ?_⟩
  · exact List.sorted_insertionSort _ _
  · exact List.perm_insertionSort _ _
  · exact List.sorted_insertionSort _ _
  · exact List.perm_insertionSort _ _

/-!  Shape of the pagination loop. -/

theorem chunkLoopFuel_nil (latestBlock chunkSize fuel f : ℕ)
    (h : ¬ f < latestBlock) :
    chunkLoopFuel latestBlock chunkSize fuel f = [] := by
  cases fuel <;> simp [chunkLoopFuel, h]

theorem chunkLoopFuel_cons (latestBlock chunkSize fuel f : ℕ)
    (hfuel : latestBlock ≤ f + fuel) (h : f < latestBlock) :
    chunkLoopFuel latestBlock chunkSize fuel f =
      (f, min (f + chunkSize - 1) latestBlock) ::
        chunkLoopFuel latestBlock chunkSize (fuel - 1) (f + chunkSize) := by
  cases fuel with
  | zero => omega
  | succ fl => simp [chunkLoopFuel, h]

theorem chunkLoopFuel_congr (latestBlock c : ℕ) (hc : 0 < c) :
    ∀ f₁ f₂ f : ℕ, latestBlock ≤ f + f₁ → latestBlock ≤ f + f₂ →
      chunkLoopFuel latestBlock c f₁ f = chunkLoopFuel latestBlock c f₂ f := by
  intro f₁
  induction f₁ with
  | zero =>
      intro f₂ f h1 h2
      have h : ¬ f < latestBlock := by omega
      rw [chunkLoopFuel_nil _ _ _ _ h, chunkLoopFuel_nil _ _ _ _ h]
  | succ fl ih =>
      intro f₂ f h1 h2
      by_cases h : f < latestBlock
      · rw [chunkLoopFuel_cons _ _ _ _ h1 h, chunkLoopFuel_cons _ _ _ _ h2 h]
        congr 1
        exact ih (f₂ - 1) (f + c) (by omega) (by omega)
      · rw [chunkLoopFuel_nil _ _ _ _ h, chunkLoopFuel_nil _ _ _ _ h]

theorem chunkLoop_nil (latestBlock c f : ℕ) (h : ¬ f < latestBlock) :
    chunkLoop latestBlock c f = [] :=
  chunkLoopFuel_nil latestBlock c _ f h

theorem chunkLoop_cons (latestBlock c f : ℕ) (hc : 0 < c) (h : f < latestBlock) :
    chunkLoop latestBlock c f =
      (f, min (f + c - 1) latestBlock) :: chunkLoop latestBlock c (f + c) := by
  rw [chunkLoop, chunkLoopFuel_cons _ _ _ _ (by omega) h, chunkLoop]
  congr 1
  exact chunkLoopFuel_congr latestBlock c hc _ _ _ (by omega) (by omega)

theorem chunkLoop_mem_shape (latestBlock c : ℕ) (hc : 0 < c) (f : ℕ) :
    ∀ r ∈ chunkLoop latestBlock c f,
      f ≤ r.1 ∧ r.1 < latestBlock ∧ r.2 = min (r.1 + c - 1) latestBlock := by
  by_cases h : f < latestBlock
  · rw [chunkLoop_cons latestBlock c f hc h]
    intro r hr
    rcases List.mem_cons.mp hr with hr | hr
    · subst hr
      exact ⟨le_refl _, h, rfl⟩
    · have hrec := chunkLoop_mem_shape latestBlock c hc (f + c) r hr
      exact ⟨by omega, hrec.2.1, hrec.2.2⟩
  · rw [chunkLoop_nil latestBlock c f h]
    intro r hr
    cases hr
termination_by latestBlock - f
decreasing_by omega

theorem chunkLoop_chain (latestBlock c : ℕ) (hc : 0 < c) (f : ℕ) :
    List.Chain' (fun r r₂ => r₂.1 = r.2 + 1) (chunkLoop latestBlock c f) := by
  by_cases h : f < latestBlock
  · rw [chunkLoop_cons latestBlock c f hc h]
    refine List.Chain'.cons' (chunkLoop_chain latestBlock c hc (f + c)) ?_
    intro r₂ hr₂
    by_cases h2 : f + c < latestBlock
    · rw [chunkLoop_cons latestBlock c (f + c) hc h2] at hr₂
      simp only [List.head?_cons, Option.mem_def, Option.some.injEq] at hr₂
      subst hr₂
      simp only
      omega
    · rw [chunkLoop_nil latestBlock c (f + c) h2] at hr₂
      simp at hr₂
  · rw [chunkLoop_nil latestBlock c f h]
    exact List.chain'_nil
termination_by latestBlock - f
decreasing_by omega

theorem chunkLoop_pairwise (latestBlock c : ℕ) (hc : 0 < c) (f : ℕ) :
    List.Pairwise (fun r r₂ => r.2 < r₂.1) (chunkLoop latestBlock c f) := by
  by_cases h : f < latestBlock
  · rw [chunkLoop_cons latestBlock c f hc h]
    refine List.Pairwise.cons ?_ (chunkLoop_pairwise latestBlock c hc (f + c))
    intro r₂ hr₂
    have hs := chunkLoop_mem_shape latestBlock c hc (f + c) r₂ hr₂
    simp only
    omega
  · rw [chunkLoop_nil latestBlock c f h]
    exact List.Pairwise.nil
termination_by latestBlock - f
decreasing_by omega

theorem chunkLoop_head (latestBlock c f : ℕ) (hc : 0 < c) (h : f < latestBlock) :
    (chunkLoop latestBlock c f).head?.map Prod.fst = some f := by
  rw [chunkLoop_cons latestBlock c f hc h]
  rfl

theorem chunkLoop_last (latestBlock c : ℕ) (hc : 0 < c) (f : ℕ)
    (h : f < latestBlock) :
    (chunkLoop latestBlock c f).getLast?.map Prod.snd =
      some (if c ∣ (latestBlock - f) then latestBlock - 1 else latestBlock) := by
  by_cases h2 : f + c < latestBlock
  · rw [chunkLoop_cons latestBlock c f hc h]
    have hx : ((f, min (f + c - 1) latestBlock) ::
        chunkLoop latestBlock c (f + c)).getLast? =
        (chunkLoop latestBlock c (f + c)).getLast? := by
      rw [chunkLoop_cons latestBlock c (f + c) hc h2]
      rfl
    rw [hx, chunkLoop_last latestBlock c hc (f + c) h2]
    have hiff : c ∣ (latestBlock - (f + c)) ↔ c ∣ (latestBlock - f) := by
      constructor
      · intro hd
        have heq : latestBlock - f = (latestBlock - (f + c)) + c := by omega
        rw [heq]
        exact Nat.dvd_add hd (dvd_refl c)
      · intro hd
        have heq : latestBlock - (f + c) = (latestBlock - f) - c := by omega
        rw [heq]
        exact Nat.dvd_sub' hd (dvd_refl c)
    simp [hiff]
  · rw [chunkLoop_cons latestBlock c f hc h,
      chunkLoop_nil latestBlock c (f + c) h2]
    have hsing : (([(f, min (f + c - 1) latestBlock)] :
        List (ℕ × ℕ)).getLast?).map Prod.snd =
        some (min (f + c - 1) latestBlock) := rfl
    rw [hsing]
    by_cases hdvd : c ∣ (latestBlock - f)
    · obtain ⟨k, hk⟩ := hdvd
      have hk1 : k = 1 := by
        rcases Nat.lt_or_ge k 1 with hlt | hge
        · interval_cases k
          omega
        · rcases Nat.lt_or_ge k 2 with hlt2 | hge2
          · omega
          · exfalso
            have h2c : 2 * c ≤ c * k := by
              calc 2 * c = c * 2 := by ring
              _ ≤ c * k := Nat.mul_le_mul_left c hge2
            omega
      rw [if_pos ⟨k, hk⟩]
      subst hk1
      simp only [Option.some.injEq]
      omega
    · rw [if_neg hdvd]
      have hne : f + c ≠ latestBlock := by
        intro heq
        apply hdvd
        have hceq : latestBlock - f = c := by omega
        rw [hceq]
      simp only [Option.some.injEq]
      omega
termination_by latestBlock - f
decreasing_by omega

theorem chunkLoop_covers (latestBlock c : ℕ) (hc : 0 < c) (f : ℕ) :
    ∀ b, f ≤ b →
      (b < latestBlock ∨ (b = latestBlock ∧ ¬ c ∣ (latestBlock - f))) →
      ∃ r ∈ chunkLoop latestBlock c f, r.1 ≤ b ∧ b ≤ r.2 := by
  by_cases h : f < latestBlock
  · intro b hfb hb
    have hble : b ≤ latestBlock := by
      rcases hb with h1 | ⟨h1, -⟩ <;> omega
    by_cases hbc : b ≤ min (f + c - 1) latestBlock
    · refine ⟨(f, min (f + c - 1) latestBlock), ?_, hfb, hbc⟩
      rw [chunkLoop_cons latestBlock c f hc h]
      exact List.mem_cons_self _ _
    · push_neg at hbc
      have hfcb : f + c ≤ b := by omega
      have hb2 : b < latestBlock ∨
          (b = latestBlock ∧ ¬ c ∣ (latestBlock - (f + c))) := by
        rcases hb with h1 | ⟨h1, h2⟩
        · exact Or.inl h1
        · refine Or.inr ⟨h1, ?_⟩
          intro hdvd
          apply h2
          have heq : latestBlock - f = (latestBlock - (f + c)) + c := by omega
          rw [heq]
          exact Nat.dvd_add hdvd (dvd_refl c)
      obtain ⟨r, hr, h1, h2⟩ := chunkLoop_covers latestBlock c hc (f + c) b hfcb hb2
      refine ⟨r, ?_, h1, h2⟩
      rw [chunkLoop_cons latestBlock c f hc h]
      exact List.mem_cons_of_mem _ hr
  · intro b hfb hb
    rcases hb with h1 | ⟨h1, h2⟩
    · omega
    · exfalso
      apply h2
      have : latestBlock - f = 0 := by omega
      rw [this]
      exact dvd_zero c
termination_by latestBlock - f
decreasing_by omega

theorem fetchChunks_eq (resp : ℕ → ℕ → ChunkResult) :
    ∀ ranges : List (ℕ × ℕ), (∀ r ∈ ranges, chunkDecodes resp r = true) →
      fetchChunks resp ranges =
        some ((ranges.map (chunkEventsOf resp)).flatten) := by
  intro ranges
  induction ranges with
  | nil => intro _; rfl
  | cons r rest ih =>
      intro h
      obtain ⟨f, t⟩ := r
      have hrest := ih (fun x hx => h x (List.mem_cons_of_mem _ hx))
      cases hres : resp f t with
      | rpcError msg =>
          simp only [fetchChunks, hres, hrest, List.map_cons, List.flatten_cons]
          simp [chunkEventsOf, hres]
      | ok logs =>
          have hdec := h (f, t) (List.mem_cons_self _ _)
          simp only [chunkDecodes, hres] at hdec
          obtain ⟨evs, hevs⟩ := Option.isSome_iff_exists.mp hdec
          have hce : chunkEventsOf resp (f, t) = evs := by
            simp only [chunkEventsOf, hres, hevs, Option.getD_some]
          simp only [fetchChunks, hres, hevs, hrest, List.map_cons,
            List.flatten_cons, hce]

/-- C6 counterexample: at height 10 with window 10 (both positive) and
chunk size 5, the pagination loop issues exactly the ranges [0,4] and
[5,9].  Block 10 — the top of the claimed window from max(0, 10-10) = 0
through latest = 10 — lies in no issued range, so the ranges do not
cover the window through `latest`. -/
theorem claim6_counterexample :
    0 < 10 ∧ 0 < 5 ∧
    chunkRanges 10 10 5 = [(0, 4), (5, 9)] ∧
    ¬ ∃ r ∈ chunkRanges 10 10 5, r.1 ≤ 10 ∧ 10 ≤ r.2 := by decide

/-- C6 (amended): with a positive window `w` and chunk size `c`, after
the height query answers `latest` the issued range queries are
consecutive and pairwise disjoint, each spans at most `c` blocks and
stays within `[max(0, latest - w), latest]`, they begin at
`max(0, latest - w)`, and their union covers the window **except** that
the top block `latest` is reached exactly when `c` does not divide
`latest - start` (when it does divide, the last issued range ends at
`latest - 1` and block `latest` is never queried).  A range answered
with an RPC error contributes no events without failing the call, which
returns the decoded events of the successful ranges concatenated in
query order. -/
theorem claim6_chunked_fetch (latest w c : ℕ) (resp : ℕ → ℕ → ChunkResult)
    (hw : 0 < w) (hc : 0 < c)
    (hdec : ∀ r ∈ chunkRanges latest w c, chunkDecodes resp r = true) :
    (∀ r ∈ chunkRanges latest w c,
      latest - w ≤ r.1 ∧ r.1 ≤ r.2 ∧ r.2 + 1 ≤ r.1 + c ∧ r.2 ≤ latest) ∧
    List.Chain' (fun r r₂ => r₂.1 = r.2 + 1) (chunkRanges latest w c) ∧
    List.Pairwise (fun r r₂ => r.2 < r₂.1) (chunkRanges latest w c) ∧
    (0 < latest →
      (chunkRanges latest w c).head?.map Prod.fst = some (latest - w)) ∧
    (0 < latest →
      (chunkRanges latest w c).getLast?.map Prod.snd =
        some (if c ∣ (latest - (latest - w)) then latest - 1 else latest)) ∧
    (∀ b, latest - w ≤ b →
      (b < latest ∨ (b = latest ∧ ¬ c ∣ (latest - (latest - w)))) →
      ∃ r ∈ chunkRanges latest w c, r.1 ≤ b ∧ b ≤ r.2) ∧
    fetchPolygonLogs latest w c resp =
      some (((chunkRanges latest w c).map (chunkEventsOf resp)).flatten) := by
  refine ⟨?_, chunkLoop_chain latest c hc _, chunkLoop_pairwise latest c hc _,
    ?_, ?_, chunkLoop_covers latest c hc _, fetchChunks_eq resp _ hdec⟩
  · intro r hr
    have hs := chunkLoop_mem_shape latest c hc (latest - w) r hr
    refine ⟨hs.1, ?_, ?_, ?_⟩ <;> omega
  · intro hpos
    exact chunkLoop_head latest c (latest - w) hc (by omega)
  · intro hpos
    exact chunkLoop_last latest c hc (latest - w) (by omega)

theorem claim6_chunked_fetch_witness :
    fetchPolygonLogs 10 10 3
      (fun f _ => if f = 3 then .rpcError "range query error" else .ok []) =
      some (((chunkRanges 10 10 3).map (chunkEventsOf
        (fun f _ => if f = 3 then .rpcError "range query error" else .ok []))).flatten) :=
  (claim6_chunked_fetch 10 10 3
    (fun f _ => if f = 3 then .rpcError "range query error" else .ok [])
    (by decide) (by decide) (by decide)).2.2.2.2.2.2
